import Mathlib

/-!
Verification of the GreeDoS coordination core (greeDos.py).

The Python source is shallowly embedded: pure data manipulation becomes Lean
functions, the concurrent worker loops become explicit labelled transition
systems (a label is a scheduler choice), and the SQLite sink becomes a small
state type whose operations may fail with `Except.error`.  Wall-clock times
are modelled as natural numbers; the `strftime("%Y-%m-%d %H:%M:%S")` rendering
used by the source is order-preserving (fixed-width ISO format), so comparing
the numeric clock faithfully reflects comparing the formatted strings.
-/

namespace GreeDos

/-! ### Python collections: `collections.deque(maxlen := m)` and negative slicing -/

/-- Appending to a `collections.deque` with `maxlen := m`: the new element goes to
the right and, if the deque is full, the leftmost (oldest) element is discarded. -/
def deque_append (m : Nat) (q : List α) (x : α) : List α :=
  let q' := q ++ [x]
  q'.drop (q'.length - m)

/-- Python slicing `l[-count:]`.  For `count = 0` the slice is `l[0:]`, i.e. the
whole list (Python has no negative zero), otherwise it is the last
`min count l.length` elements. -/
def pyTakeLast (l : List α) (count : Nat) : List α :=
  if count = 0 then l else l.drop (l.length - count)

/-! ### The SQLite sink (greeDos.py lines 80-96) -/

/-- The relevant state of the `osint_tool.db` SQLite database: which tables
exist, and the rows of the `events` table `(id, event_type, details)`. -/
structure SqliteDb where
  tables : List String
  events : List (Nat × String × String)
deriving DecidableEq

/-- A freshly created database file: no tables, no rows. -/
def freshDb : SqliteDb := ⟨[], []⟩

/-- The literal SQL text executed by `init_database` (lines 84-86 of the
source): it is whitespace only — the `CREATE TABLE` statement is missing. -/
def INIT_DATABASE_SQL : String := "\n        \n    "

/-- A SQL text consisting only of whitespace contains no statement at all. -/
def isBlankSql (sql : String) : Bool :=
  sql.data.all Char.isWhitespace

/-- Executing a schema text: a blank script is a no-op; a
`CREATE TABLE events ...` statement (the one the program would need)
would create the `events` table.  Any other text is irrelevant here. -/
def executeSchemaSql (sql : String) (db : SqliteDb) : SqliteDb :=
  if isBlankSql sql then db
  else if sql.startsWith "CREATE TABLE events" then
    { db with tables := db.tables ++ ["events"] }
  else db

/-- Function init_database (lines 80-88): connect to `osint_tool.db` (creating the
file if absent), execute the SQL text of the source, commit, close.  The SQL
text is `INIT_DATABASE_SQL`, which contains no statement. -/
def init_database (db : SqliteDb) : SqliteDb :=
  executeSchemaSql INIT_DATABASE_SQL db

/-- Function log_event_to_db (lines 90-96): `INSERT INTO events (event_type, details)
VALUES (?, ?)`.  The insert succeeds only if the `events` table exists;
otherwise sqlite raises `OperationalError: no such table: events`. -/
def log_event_to_db (event_type details : String) (db : SqliteDb) :
    Except String SqliteDb :=
  if "events" ∈ db.tables then
    .ok { db with events := db.events ++ [(db.events.length + 1, event_type, details)] }
  else
    .error "no such table: events"

/-! ### ForensicAnalyzer (greeDos.py lines 150-165) -/

/-- One entry of the in-memory event queue: the dict
`{"timestamp": ..., "event_type": ..., "details": ...}` built in `log_event`.
The timestamp is the numeric reading of the wall clock at the moment
`datetime.now()` was called. -/
structure ForensicEvent where
  timestamp : Nat
  event_type : String
  details : String
deriving DecidableEq

/-- State of ForensicAnalyzer: `event_queue = deque(maxlen := 50)`. -/
structure ForensicAnalyzer where
  event_queue : List ForensicEvent
deriving DecidableEq

/-- The analyzer as constructed by `ForensicAnalyzer.__init__`: empty queue. -/
def analyzer0 : ForensicAnalyzer := ⟨[]⟩

/-- Method log_event (lines 158-162): read the clock (`now`), build the event dict,
append it to the bounded deque, then call `log_event_to_db`.  The first
component is the updated in-memory state; the second is the list of
`log_event_to_db` calls the method performs (exactly one). -/
def log_event (a : ForensicAnalyzer) (now : Nat) (event_type details : String) :
    ForensicAnalyzer × List (String × String) :=
  (⟨deque_append 50 a.event_queue ⟨now, event_type, details⟩⟩, [(event_type, details)])

/-- Method get_recent_events (lines 164-165): `list(self.event_queue)[-count:]`. -/
def get_recent_events (a : ForensicAnalyzer) (count : Nat) : List ForensicEvent :=
  pyTakeLast a.event_queue count

/-- The event built by `log_event` from a `(now, event_type, details)` triple. -/
def mkEvent (x : Nat × String × String) : ForensicEvent := ⟨x.1, x.2.1, x.2.2⟩

/-- Events built from a list of call triples. -/
def mkEvents (xs : List (Nat × String × String)) : List ForensicEvent := xs.map mkEvent

/-- A sequence of `log_event` calls, keeping only the in-memory state. -/
def appendEvents (a : ForensicAnalyzer) (xs : List (Nat × String × String)) :
    ForensicAnalyzer :=
  xs.foldl (fun st x => (log_event st x.1 x.2.1 x.2.2).1) a

/-! ### AlertDetector (greeDos.py lines 201-221) -/

/-- Global constant, line 75 of the source. -/
def ALERT_THRESHOLD : Nat := 100

/-- State of AlertDetector: the `self.alerts` list (insertion-ordered). -/
structure AlertDetector where
  alerts : List String
deriving DecidableEq

/-- The message f-string of line 217: it embeds the exact counter value. -/
def alert_msg (req_count : Nat) : String :=
  "High traffic alert: " ++ toString req_count ++ " requests sent!"

/-- The full effect of one `check_for_alerts` call: updated detector state,
updated analyzer state, the `log_event_to_db` calls performed transitively,
and the returned `self.alerts` value. -/
structure CheckResult where
  detector : AlertDetector
  analyzer : ForensicAnalyzer
  db_calls : List (String × String)
  ret : List String
deriving DecidableEq

/-- Method check_for_alerts (lines 213-221): snapshot the counter under the
simulator lock (the snapshot is the `req_count` argument), fire a new alert
only if the counter strictly exceeds `ALERT_THRESHOLD` and the exact message
string is not already in `self.alerts`; always return `self.alerts`. -/
def check_for_alerts (req_count now : Nat) (d : AlertDetector) (a : ForensicAnalyzer) :
    CheckResult :=
  if ALERT_THRESHOLD < req_count then
    let msg := alert_msg req_count
    if msg ∈ d.alerts then ⟨d, a, [], d.alerts⟩
    else
      let d' : AlertDetector := ⟨d.alerts ++ [msg]⟩
      let p := log_event a now "TRAFFIC_ALERT" msg
      ⟨d', p.1, p.2, d'.alerts⟩
  else ⟨d, a, [], d.alerts⟩

end GreeDos

namespace GreeDos

/-! ### Decimal rendering of naturals is injective

`alert_msg` embeds the counter through `toString : Nat → String`, which is
`Nat.repr`.  The lemmas below characterise `Nat.repr` by the most-significant
-first digit list `digitsMSB` and show it is injective, so distinct counter
values always yield distinct alert messages. -/

/-- The numeric value of a decimal digit character. -/
def charVal (c : Char) : Nat := c.toNat - 48

theorem charVal_digitChar {d : Nat} (h : d < 10) :
    charVal (Nat.digitChar d) = d := by
  interval_cases d <;> decide

/-- Most-significant-first decimal digits of a natural number. -/
def digitsMSB (n : Nat) : List Char :=
  if n < 10 then [Nat.digitChar n]
  else digitsMSB (n / 10) ++ [Nat.digitChar (n % 10)]
termination_by n
decreasing_by exact Nat.div_lt_self (by omega) (by omega)

theorem toDigitsCore_eq (fuel n : Nat) (ds : List Char) (h : n < fuel) :
    Nat.toDigitsCore 10 fuel n ds = digitsMSB n ++ ds := by
  induction fuel generalizing n ds with
  | zero => omega
  | succ f ih =>
    rw [Nat.toDigitsCore]
    by_cases h10 : n / 10 = 0
    · have hn : n < 10 := by omega
      rw [if_pos h10, digitsMSB, if_pos hn, Nat.mod_eq_of_lt hn]
      simp
    · have hn : ¬ n < 10 := by
        intro hlt
        exact h10 (Nat.div_eq_of_lt hlt)
      rw [if_neg h10]
      conv_rhs => rw [digitsMSB, if_neg hn]
      rw [ih (n / 10) _ (by omega)]
      simp

/-- Decode a most-significant-first decimal digit list. -/
def decodeDigits (l : List Char) : Nat :=
  l.foldl (fun acc c => 10 * acc + charVal c) 0

theorem decodeDigits_digitsMSB (n : Nat) : decodeDigits (digitsMSB n) = n := by
  induction n using Nat.strong_induction_on with
  | _ n ih =>
    rw [digitsMSB]
    by_cases h : n < 10
    · rw [if_pos h]
      simp [decodeDigits, charVal_digitChar h]
    · rw [if_neg h]
      have hdiv := ih (n / 10) (Nat.div_lt_self (by omega) (by omega))
      have hmod : n % 10 < 10 := Nat.mod_lt _ (by omega)
      simp only [decodeDigits, List.foldl_append] at hdiv ⊢
      simp [hdiv, charVal_digitChar hmod, Nat.div_add_mod]

theorem digitsMSB_inj {m n : Nat} (h : digitsMSB m = digitsMSB n) : m = n := by
  have h2 := congrArg decodeDigits h
  rwa [decodeDigits_digitsMSB, decodeDigits_digitsMSB] at h2

theorem toString_nat_data (n : Nat) : (toString n).data = digitsMSB n := by
  show (Nat.repr n).data = digitsMSB n
  unfold Nat.repr Nat.toDigits
  rw [toDigitsCore_eq (n + 1) n [] (Nat.lt_succ_self n)]
  simp [List.asString]

theorem alert_msg_inj {m n : Nat} (h : alert_msg m = alert_msg n) : m = n := by
  have hd := congrArg String.data h
  simp only [alert_msg, String.data_append] at hd
  have hd2 := List.append_cancel_right hd
  have hd3 := List.append_cancel_left hd2
  rw [toString_nat_data, toString_nat_data] at hd3
  exact digitsMSB_inj hd3

/-! ### AttackSimulator (greeDos.py lines 101-145) as a labelled transition system

`simulate_http_flood` runs in each worker thread:
```
end_time = time.time() + self.duration
while time.time() < end_time and self.running:
    time.sleep(...)                    -- jittered delay
    with self.lock: self.requests_sent += 1
log_event_to_db("SIMULATION", "One simulation thread has finished.")
```
Each worker is a small automaton: at the top of the loop (`atCheck`) it either
passes the condition and goes to sleep (`sleeping`), or fails it, performs the
single `log_event_to_db` call and terminates (`finished`).  Waking from sleep
performs the lock-guarded increment (atomic: the lock makes the
read-modify-write indivisible) and returns to the loop top.  A label picks
which thread (or the wall clock, or a `stop()` call) moves next, so every
interleaving of the real program is a label list here. -/

/-- Program counter of one flood worker. -/
inductive WorkerPC
  | atCheck
  | sleeping
  | finished
deriving DecidableEq

/-- Shared state of the run: the lock-guarded counter, the `running` flag, the
wall clock, the worker deadline `end_time`, the worker automata, the sequence
of `log_event_to_db` calls issued, and the analyzer's in-memory queue (which
no worker ever touches). -/
structure SimState where
  requests_sent : Nat
  running : Bool
  now : Nat
  end_time : Int
  workers : List WorkerPC
  db_calls : List (String × String)
  event_queue : List ForensicEvent
deriving DecidableEq

/-- Scheduler choices: advance the clock, a `stop()` call, worker `i` passes
the loop condition, worker `i` wakes and increments, worker `i` fails the
condition and exits. -/
inductive SimLabel
  | tick
  | stop
  | passCheck (i : Nat)
  | incr (i : Nat)
  | exitLoop (i : Nat)
deriving DecidableEq

/-- One atomic step of the system; `none` when the chosen label is not enabled. -/
def simStep : SimLabel → SimState → Option SimState
  | .tick, s => some { s with now := s.now + 1 }
  | .stop, s => some { s with running := false }
  | .passCheck i, s =>
    match s.workers[i]? with
    | some .atCheck =>
      if (s.now : Int) < s.end_time ∧ s.running = true then
        some { s with workers := s.workers.set i .sleeping }
      else none
    | _ => none
  | .incr i, s =>
    match s.workers[i]? with
    | some .sleeping =>
      some { s with workers := s.workers.set i .atCheck,
                    requests_sent := s.requests_sent + 1 }
    | _ => none
  | .exitLoop i, s =>
    match s.workers[i]? with
    | some .atCheck =>
      if (s.now : Int) < s.end_time ∧ s.running = true then none
      else
        some { s with workers := s.workers.set i .finished,
                      db_calls := s.db_calls ++
                        [("SIMULATION", "One simulation thread has finished.")] }
    | _ => none

/-- Run a schedule of labels. -/
def simRun : List SimLabel → SimState → Option SimState
  | [], s => some s
  | l :: ls, s => (simStep l s).bind (simRun ls)

/-- The state right after `start()` has spawned the workers (lines 132-139):
`running := True`, every worker thread at the top of its loop, counter as left
by `__init__` (zero).  `range(threads)` of a non-positive `int` is empty, hence
`Int.toNat`. -/
def startState (threads duration : Int) : SimState :=
  { requests_sent := 0
    running := true
    now := 0
    end_time := duration
    workers := List.replicate threads.toNat .atCheck
    db_calls := []
    event_queue := [] }

/-- Does a label perform the lock-guarded increment? -/
def isIncr : SimLabel → Bool
  | .incr _ => true
  | _ => false

/-- Does a label perform a worker's loop exit? -/
def isExitLoop : SimLabel → Bool
  | .exitLoop _ => true
  | _ => false

/-- Inversion: a successful step has exactly one of five shapes. -/
theorem simStep_cases {l : SimLabel} {s s' : SimState} (h : simStep l s = some s') :
    (l = SimLabel.tick ∧ s' = { s with now := s.now + 1 }) ∨
    (l = SimLabel.stop ∧ s' = { s with running := false }) ∨
    (∃ i, l = SimLabel.passCheck i ∧ s.workers[i]? = some .atCheck ∧
      ((s.now : Int) < s.end_time ∧ s.running = true) ∧
      s' = { s with workers := s.workers.set i .sleeping }) ∨
    (∃ i, l = SimLabel.incr i ∧ s.workers[i]? = some .sleeping ∧
      s' = { s with workers := s.workers.set i .atCheck,
                    requests_sent := s.requests_sent + 1 }) ∨
    (∃ i, l = SimLabel.exitLoop i ∧ s.workers[i]? = some .atCheck ∧
      ¬ ((s.now : Int) < s.end_time ∧ s.running = true) ∧
      s' = { s with workers := s.workers.set i .finished,
                    db_calls := s.db_calls ++
                      [("SIMULATION", "One simulation thread has finished.")] }) := by
  cases l with
  | tick =>
    simp only [simStep, Option.some.injEq] at h
    exact Or.inl ⟨rfl, h.symm⟩
  | stop =>
    simp only [simStep, Option.some.injEq] at h
    exact Or.inr (Or.inl ⟨rfl, h.symm⟩)
  | passCheck i =>
    refine Or.inr (Or.inr (Or.inl ⟨i, rfl, ?_⟩))
    cases hw : s.workers[i]? with
    | none => simp [simStep, hw] at h
    | some pc =>
      cases pc with
      | sleeping => simp [simStep, hw] at h
      | finished => simp [simStep, hw] at h
      | atCheck =>
        simp only [simStep, hw] at h
        split at h
        next hc => cases h; exact ⟨rfl, hc, rfl⟩
        next => cases h
  | incr i =>
    refine Or.inr (Or.inr (Or.inr (Or.inl ⟨i, rfl, ?_⟩)))
    cases hw : s.workers[i]? with
    | none => simp [simStep, hw] at h
    | some pc =>
      cases pc with
      | atCheck => simp [simStep, hw] at h
      | finished => simp [simStep, hw] at h
      | sleeping =>
        simp only [simStep, hw, Option.some.injEq] at h
        exact ⟨rfl, h.symm⟩
  | exitLoop i =>
    refine Or.inr (Or.inr (Or.inr (Or.inr ⟨i, rfl, ?_⟩)))
    cases hw : s.workers[i]? with
    | none => simp [simStep, hw] at h
    | some pc =>
      cases pc with
      | sleeping => simp [simStep, hw] at h
      | finished => simp [simStep, hw] at h
      | atCheck =>
        simp only [simStep, hw] at h
        split at h
        next => cases h
        next hc => cases h; exact ⟨rfl, hc, rfl⟩

theorem simStep_workers_length {l : SimLabel} {s s' : SimState}
    (h : simStep l s = some s') : s'.workers.length = s.workers.length := by
  rcases simStep_cases h with ⟨-, rfl⟩ | ⟨-, rfl⟩ | ⟨i, -, -, -, rfl⟩ |
    ⟨i, -, -, rfl⟩ | ⟨i, -, -, -, rfl⟩ <;> simp

theorem simStep_requests {l : SimLabel} {s s' : SimState}
    (h : simStep l s = some s') :
    s'.requests_sent = s.requests_sent + (if isIncr l then 1 else 0) := by
  rcases simStep_cases h with ⟨rfl, rfl⟩ | ⟨rfl, rfl⟩ | ⟨i, rfl, -, -, rfl⟩ |
    ⟨i, rfl, -, rfl⟩ | ⟨i, rfl, -, -, rfl⟩ <;> simp [isIncr]

theorem simRun_requests {ls : List SimLabel} {s t : SimState}
    (h : simRun ls s = some t) :
    t.requests_sent = s.requests_sent + ls.countP isIncr := by
  induction ls generalizing s with
  | nil => simp only [simRun, Option.some.injEq] at h; cases h; simp
  | cons l ls ih =>
    simp only [simRun] at h
    cases hs : simStep l s with
    | none => rw [hs] at h; cases h
    | some s' =>
      rw [hs] at h
      simp only [Option.some_bind] at h
      rw [ih h, simStep_requests hs, List.countP_cons]
      split_ifs <;> omega

theorem getElem?_some_lt {l : List α} {i : Nat} {a : α} (h : l[i]? = some a) :
    i < l.length := by
  by_contra hlt
  rw [List.getElem?_eq_none (by omega)] at h
  cases h

theorem simRun_mono {ls : List SimLabel} {s t : SimState} (h : simRun ls s = some t) :
    s.requests_sent ≤ t.requests_sent := by
  rw [simRun_requests h]; omega

theorem simStep_running {l : SimLabel} {s s' : SimState}
    (h : simStep l s = some s') (hr : s.running = false) : s'.running = false := by
  rcases simStep_cases h with ⟨-, rfl⟩ | ⟨-, rfl⟩ | ⟨i, -, -, ⟨-, hrun⟩, rfl⟩ |
    ⟨i, -, -, rfl⟩ | ⟨i, -, -, -, rfl⟩ <;> simp_all

/-- Once `stop()` has cleared the flag, each worker can increment at most once
more: only a worker already past the loop check (asleep, increment pending)
contributes, and afterwards it can never pass the check again. -/
theorem simRun_incr_once {ls : List SimLabel} {s t : SimState}
    (hr : s.running = false) (h : simRun ls s = some t) (i : Nat) :
    ls.count (SimLabel.incr i) ≤
      (if s.workers[i]? = some WorkerPC.sleeping then 1 else 0) := by
  induction ls generalizing s with
  | nil => simp [List.count_nil]
  | cons l ls ih =>
    simp only [simRun] at h
    cases hs : simStep l s with
    | none => rw [hs] at h; cases h
    | some s' =>
      rw [hs] at h
      simp only [Option.some_bind] at h
      have ih' := ih (simStep_running hs hr) h
      rcases simStep_cases hs with ⟨rfl, rfl⟩ | ⟨rfl, rfl⟩ | ⟨j, rfl, -, ⟨-, hrun⟩, rfl⟩ |
        ⟨j, rfl, hw, rfl⟩ | ⟨j, rfl, hw, -, rfl⟩
      · simpa [List.count_cons] using ih'
      · simpa [List.count_cons] using ih'
      · rw [hr] at hrun; cases hrun
      · by_cases hij : j = i
        · subst hij
          have hj : j < s.workers.length := getElem?_some_lt hw
          rw [List.getElem?_set_self hj] at ih'
          have h0 : ls.count (SimLabel.incr j) = 0 := by simpa using ih'
          rw [hw]
          simp [List.count_cons, h0]
        · rw [List.getElem?_set_ne hij] at ih'
          calc (SimLabel.incr j :: ls).count (SimLabel.incr i)
              = ls.count (SimLabel.incr i) := by simp [List.count_cons, hij]
            _ ≤ _ := ih'
      · by_cases hij : j = i
        · subst hij
          have hj : j < s.workers.length := getElem?_some_lt hw
          rw [List.getElem?_set_self hj] at ih'
          have h0 : ls.count (SimLabel.incr j) = 0 := by simpa using ih'
          rw [hw]
          simp [List.count_cons, h0]
        · rw [List.getElem?_set_ne hij] at ih'
          calc (SimLabel.exitLoop j :: ls).count (SimLabel.incr i)
              = ls.count (SimLabel.incr i) := by simp [List.count_cons]
            _ ≤ _ := ih'

/-- In a successful run, every performed increment belongs to one of the
workers, so the total increment count is the sum of the per-worker counts. -/
theorem simRun_countP_sum {ls : List SimLabel} {s t : SimState}
    (h : simRun ls s = some t) :
    ls.countP isIncr =
      ∑ i in Finset.range s.workers.length, ls.count (SimLabel.incr i) := by
  induction ls generalizing s with
  | nil => simp
  | cons l ls ih =>
    simp only [simRun] at h
    cases hs : simStep l s with
    | none => rw [hs] at h; cases h
    | some s' =>
      rw [hs] at h
      simp only [Option.some_bind] at h
      have ihs := ih h
      rw [simStep_workers_length hs] at ihs
      rw [List.countP_cons, ihs]
      have hsplit :
          ∑ i in Finset.range s.workers.length, (l :: ls).count (SimLabel.incr i) =
          (∑ i in Finset.range s.workers.length, ls.count (SimLabel.incr i)) +
            ∑ i in Finset.range s.workers.length,
              if (l == SimLabel.incr i) = true then 1 else 0 := by
        rw [← Finset.sum_add_distrib]
        refine Finset.sum_congr rfl fun i _ => ?_
        rw [List.count_cons]
      rw [hsplit]
      congr 1
      rcases simStep_cases hs with ⟨rfl, rfl⟩ | ⟨rfl, rfl⟩ | ⟨j, rfl, -, -, rfl⟩ |
        ⟨j, rfl, hw, rfl⟩ | ⟨j, rfl, -, -, rfl⟩
      · simp [isIncr]
      · simp [isIncr]
      · simp [isIncr]
      · have hj : j < s.workers.length := getElem?_some_lt hw
        have hind : ∀ i : Nat,
            (if (SimLabel.incr j == SimLabel.incr i) = true then (1 : Nat) else 0) =
            if j = i then 1 else 0 := by
          intro i
          by_cases hij : j = i <;> simp [hij]
        simp only [hind]
        rw [Finset.sum_ite_eq]
        simp [isIncr, Finset.mem_range.mpr hj]
      · simp [isIncr]

/-- Which `log_event_to_db` calls a step performs, and that no step touches the
analyzer's in-memory queue. -/
theorem simStep_db_calls {l : SimLabel} {s s' : SimState}
    (h : simStep l s = some s') :
    s'.db_calls = s.db_calls ++
      (if isExitLoop l then [("SIMULATION", "One simulation thread has finished.")] else []) ∧
    s'.event_queue = s.event_queue := by
  rcases simStep_cases h with ⟨rfl, rfl⟩ | ⟨rfl, rfl⟩ | ⟨i, rfl, -, -, rfl⟩ |
    ⟨i, rfl, -, rfl⟩ | ⟨i, rfl, -, -, rfl⟩ <;> simp [isExitLoop]

/-- Over a whole run: one `SIMULATION` sink write per loop exit, and the
in-memory queue is never touched by the simulator. -/
theorem simRun_db_calls {ls : List SimLabel} {s t : SimState}
    (h : simRun ls s = some t) :
    t.db_calls = s.db_calls ++ List.replicate (ls.countP isExitLoop)
      ("SIMULATION", "One simulation thread has finished.") ∧
    t.event_queue = s.event_queue := by
  induction ls generalizing s with
  | nil => simp only [simRun, Option.some.injEq] at h; cases h; simp
  | cons l ls ih =>
    simp only [simRun] at h
    cases hs : simStep l s with
    | none => rw [hs] at h; cases h
    | some s' =>
      rw [hs] at h
      simp only [Option.some_bind] at h
      obtain ⟨hdb, hq⟩ := ih h
      obtain ⟨hdb', hq'⟩ := simStep_db_calls hs
      refine ⟨?_, by rw [hq, hq']⟩
      rw [hdb, hdb', List.countP_cons, List.append_assoc]
      cases hl : isExitLoop l <;>
        simp [hl, List.replicate_succ, Nat.add_comm, List.replicate_add]

/-- After the wall-clock deadline has passed, no worker that is not already
asleep can ever increment: the loop condition is false from now on, so the
only enabled worker moves are loop exits. -/
theorem simRun_no_incr_after_deadline {ls : List SimLabel} {s t : SimState}
    (h : simRun ls s = some t)
    (hd : s.end_time ≤ (s.now : Int))
    (hw : ∀ pc ∈ s.workers, pc ≠ WorkerPC.sleeping) :
    t.requests_sent = s.requests_sent := by
  induction ls generalizing s with
  | nil => simp only [simRun, Option.some.injEq] at h; cases h; rfl
  | cons l ls ih =>
    simp only [simRun] at h
    cases hs : simStep l s with
    | none => rw [hs] at h; cases h
    | some s' =>
      rw [hs] at h
      simp only [Option.some_bind] at h
      rcases simStep_cases hs with ⟨rfl, rfl⟩ | ⟨rfl, rfl⟩ | ⟨j, rfl, -, ⟨hlt, -⟩, rfl⟩ |
        ⟨j, rfl, hmem, rfl⟩ | ⟨j, rfl, -, -, rfl⟩
      · have hrec := ih h (show s.end_time ≤ ((s.now + 1 : Nat) : Int) by push_cast; omega) hw
        exact hrec
      · have hrec := ih h hd hw
        exact hrec
      · exact absurd hlt (by omega)
      · exact absurd rfl (hw _ (List.getElem?_mem hmem))
      · have hw' : ∀ pc ∈ s.workers.set j WorkerPC.finished, pc ≠ WorkerPC.sleeping := by
          intro pc hpc
          rcases List.mem_or_eq_of_mem_set hpc with hmem | rfl
          · exact hw pc hmem
          · simp
        have hrec := ih h hd hw'
        exact hrec

theorem simRun_append (ls₁ ls₂ : List SimLabel) (s : SimState) :
    simRun (ls₁ ++ ls₂) s = (simRun ls₁ s).bind (simRun ls₂) := by
  induction ls₁ generalizing s with
  | nil => simp [simRun]
  | cons l ls ih =>
    simp only [List.cons_append, simRun]
    cases simStep l s with
    | none => simp
    | some s' => simp [ih]

/-! ### Behaviour of the bounded deque -/

theorem deque_append_eq_rtake (m : Nat) (q : List α) (x : α) :
    deque_append m q x = (q ++ [x]).rtake m := rfl

theorem length_rtake (l : List α) (n : Nat) :
    (l.rtake n).length = min n l.length := by
  simp only [List.rtake, List.length_drop]
  omega

theorem take_cons_take (m : Nat) (x : α) (l : List α) :
    (x :: l.take m).take m = (x :: l).take m := by
  cases m with
  | zero => simp
  | succ k =>
    simp only [List.take_succ_cons, List.take_take]
    rw [Nat.min_eq_left (Nat.le_succ k)]

/-- Folding `deque_append m` from the empty deque over a list of appends keeps
exactly the last `m` appended elements, in append order. -/
theorem foldl_deque_append (m : Nat) (es : List α) :
    es.foldl (deque_append m) [] = es.rtake m := by
  induction es using List.reverseRecOn with
  | nil => simp [List.rtake]
  | append_singleton es x ih =>
    rw [List.foldl_append, List.foldl_cons, List.foldl_nil, ih,
      deque_append_eq_rtake]
    rw [List.rtake_eq_reverse_take_reverse, List.rtake_eq_reverse_take_reverse,
      List.rtake_eq_reverse_take_reverse]
    simp only [List.reverse_append, List.reverse_cons, List.reverse_nil,
      List.nil_append, List.singleton_append, List.reverse_reverse]
    rw [take_cons_take]

/-- The in-memory effect of a sequence of `log_event` calls from the fresh
analyzer: the queue keeps the last 50 constructed events, in call order. -/
theorem appendEvents_queue_eq (xs : List (Nat × String × String)) :
    (appendEvents analyzer0 xs).event_queue = (mkEvents xs).rtake 50 := by
  have h : ∀ (q : List ForensicEvent) (ys : List (Nat × String × String)),
      (appendEvents ⟨q⟩ ys).event_queue =
        (mkEvents ys).foldl (deque_append 50) q := by
    intro q ys
    induction ys generalizing q with
    | nil => simp [appendEvents, mkEvents]
    | cons y ys ih =>
      simp only [appendEvents, List.foldl_cons, mkEvents, List.map_cons] at ih ⊢
      exact ih (deque_append 50 q (mkEvent y))
  rw [show analyzer0 = ⟨[]⟩ from rfl, h [] xs, foldl_deque_append]

/-! ### The unsynchronised timestamping of `log_event` (greeDos.py lines 158-162)

`log_event` first reads the clock (`datetime.now()`, line 159) and only then
appends to the queue (line 161); `ForensicAnalyzer` holds no lock, so between
the two steps of one producer other producers may run.  The machine below has
one slot per producer for the local `event` variable that exists between the
timestamp read and the append. -/

structure LoggerState where
  clock : Nat
  pending : List (Option ForensicEvent)
  event_queue : List ForensicEvent
deriving DecidableEq

inductive LogLabel
  | tick
  | takeStamp (i : Nat) (event_type details : String)
  | pushEvent (i : Nat)
deriving DecidableEq

/-- One interleaved step: the clock advances, or producer `i` executes
lines 159-160 (read the clock, build the event), or producer `i` executes
line 161 (append the built event to the bounded deque). -/
def logStep : LogLabel → LoggerState → Option LoggerState
  | .tick, s => some { s with clock := s.clock + 1 }
  | .takeStamp i et d, s =>
    match s.pending[i]? with
    | some none =>
      some { s with pending := s.pending.set i (some ⟨s.clock, et, d⟩) }
    | _ => none
  | .pushEvent i, s =>
    match s.pending[i]? with
    | some (some e) =>
      some { s with pending := s.pending.set i none,
                    event_queue := deque_append 50 s.event_queue e }
    | _ => none

def logRun : List LogLabel → LoggerState → Option LoggerState
  | [], s => some s
  | l :: ls, s => (logStep l s).bind (logRun ls)

/-- A logger with `k` idle producers over an empty log. -/
def initLogger (k : Nat) : LoggerState :=
  { clock := 0, pending := List.replicate k none, event_queue := [] }

/-- The property that timestamps are non-decreasing in log order, as a decidable check. -/
def nondecreasingTs : List ForensicEvent → Bool
  | [] => true
  | [_] => true
  | a :: b :: rest => decide (a.timestamp ≤ b.timestamp) && nondecreasingTs (b :: rest)

/-- A serialized `log_event` call: lines 159-161 run back to back with no
interleaving, plus clock advances between calls. -/
inductive SerialLabel
  | tick
  | logCall (i : Nat) (event_type details : String)

def serialStep : SerialLabel → LoggerState → Option LoggerState
  | .tick, s => logStep .tick s
  | .logCall i et d, s => (logStep (.takeStamp i et d) s).bind (logStep (.pushEvent i))

def serialRun : List SerialLabel → LoggerState → Option LoggerState
  | [], s => some s
  | l :: ls, s => (serialStep l s).bind (serialRun ls)

theorem nondecreasingTs_tail {a : ForensicEvent} {l : List ForensicEvent}
    (h : nondecreasingTs (a :: l) = true) : nondecreasingTs l = true := by
  cases l with
  | nil => rfl
  | cons b rest =>
    simp only [nondecreasingTs, Bool.and_eq_true] at h
    exact h.2

theorem nondecreasingTs_drop {l : List ForensicEvent} (n : Nat)
    (h : nondecreasingTs l = true) : nondecreasingTs (l.drop n) = true := by
  induction n generalizing l with
  | zero => simpa using h
  | succ k ih =>
    cases l with
    | nil => rfl
    | cons a rest =>
      rw [List.drop_succ_cons]
      exact ih (nondecreasingTs_tail h)

theorem nondecreasingTs_concat {q : List ForensicEvent} {ev : ForensicEvent}
    (h : nondecreasingTs q = true) (hc : ∀ e ∈ q, e.timestamp ≤ ev.timestamp) :
    nondecreasingTs (q ++ [ev]) = true := by
  induction q with
  | nil => rfl
  | cons a q ih =>
    cases q with
    | nil =>
      simp only [List.singleton_append, nondecreasingTs, Bool.and_eq_true,
        decide_eq_true_iff]
      exact ⟨hc a (by simp), trivial⟩
    | cons b q' =>
      simp only [nondecreasingTs, Bool.and_eq_true] at h
      obtain ⟨hab, hrest⟩ := h
      have hmem : ∀ e ∈ b :: q', e.timestamp ≤ ev.timestamp := by
        intro e he
        exact hc e (List.mem_cons_of_mem a he)
      have := ih hrest hmem
      simp only [List.cons_append, nondecreasingTs, Bool.and_eq_true] at this ⊢
      exact ⟨hab, this⟩

theorem mem_deque_append {m : Nat} {q : List α} {x e : α}
    (h : e ∈ deque_append m q x) : e ∈ q ++ [x] :=
  List.drop_subset _ _ h

theorem nondecreasingTs_deque_append {q : List ForensicEvent} {ev : ForensicEvent}
    (h : nondecreasingTs q = true) (hc : ∀ e ∈ q, e.timestamp ≤ ev.timestamp) :
    nondecreasingTs (deque_append 50 q ev) = true := by
  unfold deque_append
  exact nondecreasingTs_drop _ (nondecreasingTs_concat h hc)

/-- The invariant carried through a serialized run: the queue is sorted by
timestamp and bounded by the current clock. -/
theorem serialRun_invariant {sched : List SerialLabel} {s t : LoggerState}
    (h : serialRun sched s = some t)
    (hq : nondecreasingTs s.event_queue = true)
    (hb : ∀ e ∈ s.event_queue, e.timestamp ≤ s.clock) :
    nondecreasingTs t.event_queue = true := by
  induction sched generalizing s with
  | nil => simp only [serialRun, Option.some.injEq] at h; cases h; exact hq
  | cons l ls ih =>
    simp only [serialRun] at h
    cases hs : serialStep l s with
    | none => rw [hs] at h; cases h
    | some s' =>
      rw [hs] at h
      simp only [Option.some_bind] at h
      cases l with
      | tick =>
        simp only [serialStep, logStep, Option.some.injEq] at hs
        cases hs
        exact ih h hq (fun e he => Nat.le_succ_of_le (hb e he))
      | logCall i et d =>
        simp only [serialStep, logStep] at hs
        cases hp : s.pending[i]? with
        | none => rw [hp] at hs; cases hs
        | some o =>
          cases o with
          | some e0 => rw [hp] at hs; cases hs
          | none =>
            rw [hp] at hs
            simp only [Option.some_bind, logStep] at hs
            have hi : i < s.pending.length := getElem?_some_lt hp
            rw [List.getElem?_set_self hi] at hs
            simp only [Option.some.injEq] at hs
            cases hs
            refine ih h (nondecreasingTs_deque_append hq hb) ?_
            intro e he
            rcases List.mem_append.mp (mem_deque_append he) with hm | hm
            · exact hb e hm
            · simp only [List.mem_singleton] at hm
              subst hm
              exact Nat.le_refl _

/-! ### Command-line surface (greeDos.py lines 299-308) -/

/-- The parsed command-line arguments. -/
structure Args where
  target : String
  threads : Int
  duration : Int
deriving DecidableEq

/-- The argparse configuration of the source: `--target` is required; `--threads`
(default 5) and `--duration` (default 30) are plain `int`s.  No range
validation of any kind is performed, so any integer — including zero and
negative values — is accepted. -/
def parse_args (target : Option String) (threads duration : Option Int) :
    Except String Args :=
  match target with
  | none => .error "the following arguments are required: --target"
  | some t => .ok ⟨t, threads.getD 5, duration.getD 30⟩

end GreeDos

namespace GreeDos

/-! ### The claims -/

/-- Claim C4: `check_for_alerts` fires only on a strict threshold breach: for
every counter value at most `ALERT_THRESHOLD` (in particular exactly 100) the
call appends no alert, logs no `TRAFFIC_ALERT` event (neither in memory nor to
the sink), and returns the alert list unchanged. -/
theorem claim4_no_alert_at_or_below_threshold (req_count now : Nat)
    (d : AlertDetector) (a : ForensicAnalyzer) (h : req_count ≤ ALERT_THRESHOLD) :
    check_for_alerts req_count now d a = ⟨d, a, [], d.alerts⟩ := by
  unfold check_for_alerts
  rw [if_neg (by omega)]

/-- Witness for C4 at the boundary value 100. -/
theorem claim4_witness :
    check_for_alerts 100 0 ⟨[]⟩ ⟨[]⟩ = ⟨⟨[]⟩, ⟨[]⟩, [], []⟩ :=
  claim4_no_alert_at_or_below_threshold 100 0 ⟨[]⟩ ⟨[]⟩ (by decide)

/-- Claim C3: `check_for_alerts` deduplicates by exact message text.  From a
fresh detector, two successive calls with the same above-threshold counter
value leave exactly one alert whose message embeds that value (the second call
changes nothing and performs no logging); a further call with a different
above-threshold value appends a second, distinct entry embedding the new
value. -/
theorem claim3_dedup_by_exact_message (c c' now₁ now₂ now₃ : Nat)
    (a : ForensicAnalyzer) (hc : ALERT_THRESHOLD < c) (hc' : ALERT_THRESHOLD < c')
    (hne : c' ≠ c) :
    let r₁ := check_for_alerts c now₁ ⟨[]⟩ a
    let r₂ := check_for_alerts c now₂ r₁.detector r₁.analyzer
    let r₃ := check_for_alerts c' now₃ r₂.detector r₂.analyzer
    r₁.detector.alerts = [alert_msg c] ∧
    r₂ = ⟨r₁.detector, r₁.analyzer, [], [alert_msg c]⟩ ∧
    r₃.detector.alerts = [alert_msg c, alert_msg c'] ∧
    alert_msg c ≠ alert_msg c' := by
  intro r₁ r₂ r₃
  have hmsgne : alert_msg c' ≠ alert_msg c := fun h => hne (alert_msg_inj h)
  have h1 : r₁ = ⟨⟨[alert_msg c]⟩,
      (log_event a now₁ "TRAFFIC_ALERT" (alert_msg c)).1,
      [("TRAFFIC_ALERT", alert_msg c)], [alert_msg c]⟩ := by
    show check_for_alerts c now₁ ⟨[]⟩ a = _
    simp only [check_for_alerts]
    rw [if_pos hc]
    simp [log_event]
  have h2 : r₂ = ⟨r₁.detector, r₁.analyzer, [], [alert_msg c]⟩ := by
    show check_for_alerts c now₂ r₁.detector r₁.analyzer = _
    simp only [check_for_alerts]
    rw [if_pos hc, h1]
    simp
  have h3 : r₃.detector.alerts = [alert_msg c, alert_msg c'] := by
    show (check_for_alerts c' now₃ r₂.detector r₂.analyzer).detector.alerts = _
    simp only [check_for_alerts]
    rw [if_pos hc', h2, h1]
    simp [hmsgne, log_event]
  exact ⟨by rw [h1], h2, h3, fun h => hne (alert_msg_inj h.symm)⟩

/-- Witness for C3 at the values 150 and 151 used in the spec. -/
theorem claim3_witness :
    let r₁ := check_for_alerts 150 0 ⟨[]⟩ ⟨[]⟩
    let r₂ := check_for_alerts 150 1 r₁.detector r₁.analyzer
    let r₃ := check_for_alerts 151 2 r₂.detector r₂.analyzer
    r₁.detector.alerts = [alert_msg 150] ∧
    r₂ = ⟨r₁.detector, r₁.analyzer, [], [alert_msg 150]⟩ ∧
    r₃.detector.alerts = [alert_msg 150, alert_msg 151] ∧
    alert_msg 150 ≠ alert_msg 151 :=
  claim3_dedup_by_exact_message 150 151 0 1 2 ⟨[]⟩ (by decide) (by decide) (by decide)

/-- Claim C2: the in-memory event log holds at most 50 entries after any
sequence of `log_event` calls, preserves insertion order, evicts oldest
first: after 51 appends the first appended entry is gone and
`get_recent_events 50` returns appends 2..51 in append order. -/
theorem claim2_bounded_fifo (x : Nat × String × String)
    (rest : List (Nat × String × String)) (h50 : rest.length = 50)
    (hnd : (mkEvents (x :: rest)).Nodup) :
    (∀ xs : List (Nat × String × String),
        (appendEvents analyzer0 xs).event_queue.length ≤ 50) ∧
    mkEvent x ∉ (appendEvents analyzer0 (x :: rest)).event_queue ∧
    get_recent_events (appendEvents analyzer0 (x :: rest)) 50 = mkEvents rest := by
  have hq : (appendEvents analyzer0 (x :: rest)).event_queue = mkEvents rest := by
    rw [appendEvents_queue_eq]
    simp only [List.rtake, mkEvents, List.map_cons, List.length_cons,
      List.length_map, h50]
    simp
  refine ⟨?_, ?_, ?_⟩
  · intro xs
    rw [appendEvents_queue_eq, length_rtake]
    omega
  · rw [hq]
    simp only [mkEvents, List.map_cons, List.nodup_cons] at hnd
    exact hnd.1
  · show pyTakeLast (appendEvents analyzer0 (x :: rest)).event_queue 50 = mkEvents rest
    rw [hq, pyTakeLast]
    have hlen : (mkEvents rest).length = 50 := by
      simp [mkEvents, h50]
    rw [if_neg (by omega), hlen]
    simp

/-- The head of the 51 concrete distinct call triples for the C2 witness. -/
def claim2head : Nat × String × String := (0, "PACKET", "Captured Packet-0")

def claim2rest : List (Nat × String × String) :=
  (List.range 50).map (fun i => (i + 1, "PACKET", "Captured Packet-1"))

/-- Witness for C2: the concrete 51-append run evicts exactly the first entry. -/
theorem claim2_witness :
    get_recent_events (appendEvents analyzer0 (claim2head :: claim2rest)) 50 =
      mkEvents claim2rest :=
  (claim2_bounded_fifo claim2head claim2rest (by simp [claim2rest])
    (by decide)).2.2

/-- A one-event log used to exhibit the `n = 0` behaviour of
`get_recent_events`. -/
def claim6log : ForensicAnalyzer := ⟨[⟨0, "PACKET", "Captured Packet-1"⟩]⟩

/-- Claim C6 counterexample: `get_recent_events` with `count = 0` returns the
whole log (Python `l[-0:]` is `l[0:]`), not `min 0 length = 0` entries. -/
theorem claim6_counterexample :
    get_recent_events claim6log 0 = [⟨0, "PACKET", "Captured Packet-1"⟩] ∧
    (get_recent_events claim6log 0).length ≠
      min 0 claim6log.event_queue.length := by
  exact ⟨rfl, by decide⟩

/-- Claim C6 amended: for every `n ≥ 1`, `get_recent_events n` returns exactly
`min n length` entries — the last `n` appended, oldest to newest — and (being
a pure function of the state) performs no mutation; for `n = 0` it returns the
entire log rather than zero entries. -/
theorem claim6_amended (a : ForensicAnalyzer) (n : Nat) (h : 1 ≤ n) :
    get_recent_events a n = (a.event_queue.reverse.take n).reverse ∧
    (get_recent_events a n).length = min n a.event_queue.length ∧
    get_recent_events a 0 = a.event_queue := by
  have hne : n ≠ 0 := by omega
  refine ⟨?_, ?_, rfl⟩
  · show pyTakeLast a.event_queue n = _
    rw [pyTakeLast, if_neg hne]
    show a.event_queue.rtake n = _
    rw [List.rtake_eq_reverse_take_reverse]
  · show (pyTakeLast a.event_queue n).length = _
    rw [pyTakeLast, if_neg hne]
    show (a.event_queue.rtake n).length = _
    rw [length_rtake]

/-- Witness for the amended C6 at `n = 1` on a one-event log. -/
theorem claim6_witness :
    get_recent_events claim6log 1 =
      (claim6log.event_queue.reverse.take 1).reverse ∧
    (get_recent_events claim6log 1).length =
      min 1 claim6log.event_queue.length ∧
    get_recent_events claim6log 0 = claim6log.event_queue :=
  claim6_amended claim6log 1 (by decide)

/-- Claim C8 (code bug): `init_database` executes a whitespace-only SQL string
— the `CREATE TABLE` statement its own docstring promises is missing — so no
`events` table is ever created and the very first `log_event_to_db` call
fails with `no such table: events` instead of performing the mirror write. -/
theorem claim8_missing_schema :
    init_database freshDb = freshDb ∧
    log_event_to_db "SIMULATION" "One simulation thread has finished."
        (init_database freshDb) = .error "no such table: events" := by
  constructor
  · rfl
  · rfl

/-- Claim C1: for every worker count `N ≥ 1` and any duration, the request
counter is monotonically non-decreasing along the run (every prefix of the
schedule yields a counter value at most the final one), and once all workers
have finished the counter equals the exact sum over the `N` workers of the
increments each performed: the lock-guarded `+= 1` is atomic, so no update is
lost. -/
theorem claim1_counter_exact_sum (N : Nat) (hN : 1 ≤ N) (duration : Int)
    (ls : List SimLabel) (t : SimState)
    (hrun : simRun ls (startState (N : Int) duration) = some t)
    (hdone : ∀ pc ∈ t.workers, pc = WorkerPC.finished) :
    (∀ ls₁ ls₂ u, ls = ls₁ ++ ls₂ →
        simRun ls₁ (startState (N : Int) duration) = some u →
        u.requests_sent ≤ t.requests_sent) ∧
    t.requests_sent = ∑ i in Finset.range N, ls.count (SimLabel.incr i) := by
  constructor
  · rintro ls₁ ls₂ u rfl h₁
    rw [simRun_append, h₁] at hrun
    simp only [Option.some_bind] at hrun
    exact simRun_mono hrun
  · have h1 := simRun_requests hrun
    have h2 := simRun_countP_sum hrun
    have hlen : (startState (N : Int) duration).workers.length = N := by
      simp [startState]
    rw [hlen] at h2
    rw [h1, ← h2]
    simp [startState]

/-- The final state of the concrete one-worker run used to witness C1. -/
def claim1final : SimState :=
  { requests_sent := 1, running := false, now := 0, end_time := 5,
    workers := [WorkerPC.finished],
    db_calls := [("SIMULATION", "One simulation thread has finished.")],
    event_queue := [] }

/-- Witness for C1: one worker passes the check, increments once, `stop()` is
called, and the worker exits; the final counter is the single increment. -/
theorem claim1_witness :
    (∀ ls₁ ls₂ u,
        ([SimLabel.passCheck 0, SimLabel.incr 0, SimLabel.stop,
          SimLabel.exitLoop 0] : List SimLabel) = ls₁ ++ ls₂ →
        simRun ls₁ (startState ((1 : Nat) : Int) 5) = some u →
        u.requests_sent ≤ claim1final.requests_sent) ∧
    claim1final.requests_sent = ∑ i in Finset.range 1,
      ([SimLabel.passCheck 0, SimLabel.incr 0, SimLabel.stop,
        SimLabel.exitLoop 0] : List SimLabel).count (SimLabel.incr i) :=
  claim1_counter_exact_sum 1 (by decide) 5
    [SimLabel.passCheck 0, SimLabel.incr 0, SimLabel.stop, SimLabel.exitLoop 0]
    claim1final (by decide) (by decide)

/-- A stopped one-worker state about to exit its loop, for the C5
counterexample. -/
def claim5start : SimState :=
  { requests_sent := 0, running := false, now := 0, end_time := 5,
    workers := [WorkerPC.atCheck], db_calls := [], event_queue := [] }

def claim5final : SimState :=
  { requests_sent := 0, running := false, now := 0, end_time := 5,
    workers := [WorkerPC.finished],
    db_calls := [("SIMULATION", "One simulation thread has finished.")],
    event_queue := [] }

/-- Claim C5 counterexample: a worker exits its loop and terminates, yet the
in-memory event queue stays empty — the `SIMULATION` record goes only to
`log_event_to_db`, so `get_recent_events` never observes it. -/
theorem claim5_counterexample :
    simRun [SimLabel.exitLoop 0] claim5start = some claim5final ∧
    claim5final.workers = [WorkerPC.finished] ∧
    claim5final.db_calls =
      [("SIMULATION", "One simulation thread has finished.")] ∧
    get_recent_events ⟨claim5final.event_queue⟩ 50 = [] := by
  exact ⟨by decide, rfl, rfl, rfl⟩

/-- Claim C5 amended: each worker exit performs exactly one
`log_event_to_db("SIMULATION", ...)` call — a direct durable-sink write — and
never touches the in-memory event queue, so the event is not observable
through `get_recent_events`. -/
theorem claim5_amended (ls : List SimLabel) (s t : SimState)
    (hrun : simRun ls s = some t) :
    t.db_calls = s.db_calls ++ List.replicate (ls.countP isExitLoop)
      ("SIMULATION", "One simulation thread has finished.") ∧
    t.event_queue = s.event_queue :=
  simRun_db_calls hrun

/-- Witness for the amended C5 on the concrete one-exit run. -/
theorem claim5_witness :
    claim5final.db_calls = claim5start.db_calls ++
      List.replicate (([SimLabel.exitLoop 0] : List SimLabel).countP isExitLoop)
        ("SIMULATION", "One simulation thread has finished.") ∧
    claim5final.event_queue = claim5start.event_queue :=
  claim5_amended [SimLabel.exitLoop 0] claim5start claim5final (by decide)

/-- Claim C10: after `stop()` has cleared the running flag, each worker
performs at most one further increment (the flag is tested only at the top of
the loop, before the sleep, while the increment after the sleep is
unconditional), so the counter rises by at most the number of workers. -/
theorem claim10_at_most_one_increment_after_stop (s t : SimState)
    (ls : List SimLabel) (hstop : s.running = false)
    (hrun : simRun ls s = some t) :
    (∀ i, ls.count (SimLabel.incr i) ≤ 1) ∧
    t.requests_sent ≤ s.requests_sent + s.workers.length := by
  have hone : ∀ i, ls.count (SimLabel.incr i) ≤
      (if s.workers[i]? = some WorkerPC.sleeping then 1 else 0) :=
    fun i => simRun_incr_once hstop hrun i
  constructor
  · intro i
    exact le_trans (hone i) (by split <;> omega)
  · have h1 := simRun_requests hrun
    have h2 := simRun_countP_sum hrun
    have h4 : ls.countP isIncr ≤ s.workers.length := by
      rw [h2]
      calc ∑ i in Finset.range s.workers.length, ls.count (SimLabel.incr i)
          ≤ ∑ i in Finset.range s.workers.length, 1 :=
            Finset.sum_le_sum fun i _ => le_trans (hone i) (by split <;> omega)
        _ = s.workers.length := by simp
    rw [h1]
    omega

/-- The pre-stop state for the C10 witness: the counter reads 5 and the single
worker is asleep with its increment pending. -/
def claim10start : SimState :=
  { requests_sent := 5, running := false, now := 0, end_time := 9,
    workers := [WorkerPC.sleeping], db_calls := [], event_queue := [] }

def claim10final : SimState :=
  { requests_sent := 6, running := false, now := 0, end_time := 9,
    workers := [WorkerPC.finished],
    db_calls := [("SIMULATION", "One simulation thread has finished.")],
    event_queue := [] }

/-- Witness for C10 on the concrete run where the sleeping worker performs its
one pending increment and exits. -/
theorem claim10_witness :
    (∀ i, ([SimLabel.incr 0, SimLabel.exitLoop 0] : List SimLabel).count
        (SimLabel.incr i) ≤ 1) ∧
    claim10final.requests_sent ≤
      claim10start.requests_sent + claim10start.workers.length := by
  have h := claim10_at_most_one_increment_after_stop claim10start claim10final
    [SimLabel.incr 0, SimLabel.exitLoop 0] (by decide) (by decide)
  exact h

/-- Claim C7 counterexample: two producers interleave inside `log_event` —
each reads its timestamp (line 159) before either appends (line 161), and the
later timestamp is appended first — so the reachable log has strictly
decreasing timestamps, refuting "timestamps are non-decreasing in log order
for every interleaving". -/
def claim7labels : List LogLabel :=
  [LogLabel.takeStamp 0 "PACKET" "Captured Packet-1",
   LogLabel.tick,
   LogLabel.takeStamp 1 "PACKET" "Captured Packet-2",
   LogLabel.pushEvent 1,
   LogLabel.pushEvent 0]

def claim7final : LoggerState :=
  { clock := 1, pending := [none, none],
    event_queue := [⟨1, "PACKET", "Captured Packet-2"⟩,
                    ⟨0, "PACKET", "Captured Packet-1"⟩] }

theorem claim7_counterexample :
    logRun claim7labels (initLogger 2) = some claim7final ∧
    nondecreasingTs claim7final.event_queue = false := by
  exact ⟨by decide, by decide⟩

/-- Claim C7 amended: `log_event` stamps the event when the call begins, with
no synchronisation of its own; only when the calls are serialized (timestamp
read and append of each call run back to back) are the timestamps
non-decreasing in log order — concurrent interleavings can invert them. -/
theorem claim7_amended (sched : List SerialLabel) (k : Nat) (t : LoggerState)
    (h : serialRun sched (initLogger k) = some t) :
    nondecreasingTs t.event_queue = true := by
  refine serialRun_invariant h rfl ?_
  intro e he
  simp [initLogger] at he

def claim7serialSched : List SerialLabel :=
  [SerialLabel.logCall 0 "PACKET" "Captured Packet-1",
   SerialLabel.tick,
   SerialLabel.logCall 1 "PACKET" "Captured Packet-2"]

def claim7serialFinal : LoggerState :=
  { clock := 1, pending := [none, none],
    event_queue := [⟨0, "PACKET", "Captured Packet-1"⟩,
                    ⟨1, "PACKET", "Captured Packet-2"⟩] }

/-- Witness for the amended C7 on a concrete serialized schedule. -/
theorem claim7_witness :
    nondecreasingTs claim7serialFinal.event_queue = true :=
  claim7_amended claim7serialSched 2 claim7serialFinal (by decide)

/-- Claim C9 counterexample: a non-positive `--duration` is accepted without
any error and the run starts anyway: `parse_args` succeeds, and `start()`
spawns three workers with the running flag set. -/
theorem claim9_counterexample :
    parse_args (some "http://example.com") (some 3) (some 0) =
      .ok ⟨"http://example.com", 3, 0⟩ ∧
    (startState 3 0).workers.length = 3 ∧
    (startState 3 0).running = true := by
  exact ⟨rfl, by decide, rfl⟩

/-- Claim C9 amended: the CLI performs no validation, so startup never fails
on non-positive values: parsing succeeds whenever `--target` is present; a
non-positive thread count makes `start()` spawn zero workers (`range` of a
non-positive int is empty); a non-positive duration lets workers spawn but
the loop condition is false from the outset, so the counter never moves. -/
theorem claim9_amended (tg : String) (th d : Int) (hth : th ≤ 0) (hd : d ≤ 0) :
    parse_args (some tg) (some th) (some d) = .ok ⟨tg, th, d⟩ ∧
    (startState th d).workers.length = 0 ∧
    (∀ th' : Int, ∀ ls u, simRun ls (startState th' d) = some u →
        u.requests_sent = 0) := by
  refine ⟨rfl, ?_, ?_⟩
  · simp [startState, Int.toNat_of_nonpos hth]
  · intro th' ls u hrun
    have h := simRun_no_incr_after_deadline hrun
      (show d ≤ ((0 : Nat) : Int) by push_cast; omega) ?_
    · simpa [startState] using h
    · intro pc hpc
      have hpc' : pc ∈ List.replicate th'.toNat WorkerPC.atCheck := hpc
      rw [List.eq_of_mem_replicate hpc']
      simp

/-- Witness for the amended C9 with `--threads -2 --duration -5`. -/
theorem claim9_witness :
    parse_args (some "http://example.com") (some (-2)) (some (-5)) =
      .ok ⟨"http://example.com", -2, -5⟩ ∧
    (startState (-2) (-5)).workers.length = 0 ∧
    (∀ th' : Int, ∀ ls u, simRun ls (startState th' (-5)) = some u →
        u.requests_sent = 0) :=
  claim9_amended "http://example.com" (-2) (-5) (by decide) (by decide)

end GreeDos
